import Mathlib

/-!
Verification of the proof-tree model and traversal/validation algorithms of
`backend/main.py`: the `ProofNode` data model, flattening (`extract_all_nodes`),
leaf extraction, tree-structure projection, node lookup by path-encoded id,
root-to-leaf path reconstruction, assumption pairing, and the judge-outcome
dispatch of `maestro_rag` / `process_node_with_assumptions`.

Python strings are modelled as Lean `String` (a structure over `List Char` in
this toolchain), Python `None`-able values as `Option`, Python dicts with a
fixed key set as Lean structures (a key that may be absent becomes an `Option`
field), and uncaught Python exceptions as `Except Unit`.
-/

set_option maxHeartbeats 1600000

/-! ### Models of Python string primitives -/

/-- The whitespace characters Python `str.strip()` removes at both ends.
CPython strips all Unicode whitespace, not just ASCII space: the ASCII control
whitespace `\t\n\v\f\r`, the information separators `U+001C`–`U+001F`, space,
NEL `U+0085`, NBSP `U+00A0`, Ogham space mark `U+1680`, the `U+2000`–`U+200A`
spaces, line and paragraph separator, `U+202F`, `U+205F`, and ideographic
space `U+3000`. -/
def isPySpace (c : Char) : Bool :=
  decide ((9 ≤ c.toNat ∧ c.toNat ≤ 13) ∨ (28 ≤ c.toNat ∧ c.toNat ≤ 31) ∨
    c.toNat = 32 ∨ c.toNat = 133 ∨ c.toNat = 160 ∨ c.toNat = 0x1680 ∨
    (0x2000 ≤ c.toNat ∧ c.toNat ≤ 0x200A) ∨ c.toNat = 0x2028 ∨ c.toNat = 0x2029 ∨
    c.toNat = 0x202F ∨ c.toNat = 0x205F ∨ c.toNat = 0x3000)

/-- The whitespace Python `int()` tolerates around a numeric literal. CPython
maps non-ASCII whitespace to a plain space before parsing but leaves ASCII
code points untouched, and the byte-level parser accepts only `\t\n\v\f\r` and
space — so the information separators `U+001C`–`U+001F`, which `str.strip()`
does remove, make `int()` raise (`int("\x1c1")` is a `ValueError` while
`"\x1c1".strip() == "1"`). -/
def isPyIntSpace (c : Char) : Bool :=
  decide ((9 ≤ c.toNat ∧ c.toNat ≤ 13) ∨
    c.toNat = 32 ∨ c.toNat = 133 ∨ c.toNat = 160 ∨ c.toNat = 0x1680 ∨
    (0x2000 ≤ c.toNat ∧ c.toNat ≤ 0x200A) ∨ c.toNat = 0x2028 ∨ c.toNat = 0x2029 ∨
    c.toNat = 0x202F ∨ c.toNat = 0x205F ∨ c.toNat = 0x3000)

/-- Strip whitespace from both ends of a character list. -/
def pyStripData (l : List Char) : List Char :=
  ((l.dropWhile isPySpace).reverse.dropWhile isPySpace).reverse

/-- Model of Python `str.strip()`. -/
def pyStrip (s : String) : String := ⟨pyStripData s.data⟩

/-- Strip the whitespace `int()` tolerates from both ends of a character
list. -/
def pyIntStripData (l : List Char) : List Char :=
  ((l.dropWhile isPyIntSpace).reverse.dropWhile isPyIntSpace).reverse

/-- The decimal digit character for `d < 10` (junk `'9'` above, never used there). -/
def digitChar (d : Nat) : Char :=
  match d with
  | 0 => '0' | 1 => '1' | 2 => '2' | 3 => '3' | 4 => '4'
  | 5 => '5' | 6 => '6' | 7 => '7' | 8 => '8' | _ => '9'

/-- Decimal digits of `n`, most significant first; `fuel` bounds the recursion
so the definition stays kernel-reducible (any `fuel > n` gives the digits). -/
def natReprCore : Nat → Nat → List Char
  | 0, _ => []
  | fuel+1, n => if n < 10 then [digitChar n] else natReprCore fuel (n / 10) ++ [digitChar (n % 10)]

/-- Decimal representation of a natural number, as a character list. -/
def natRepr (n : Nat) : List Char := natReprCore (n + 1) n

/-- Model of Python's decimal formatting of a nonnegative integer, `f"{n}"`. -/
def natStr (n : Nat) : String := ⟨natRepr n⟩

/-- Value of a (already checked) decimal digit string, most significant first. -/
def digitsToNat (l : List Char) : Nat := l.foldl (fun a c => a * 10 + (c.toNat - 48)) 0

/-- First code points of the ten-code-point runs of decimal digits (Unicode
category `Nd`, per the Unicode 14.0 database CPython links against), which are
exactly the digit characters Python `int()` accepts: a character with code
`b + d` for a base `b` in this list and `d < 10` is the digit of value `d`
(so `int("١") == 1` via base `0x660`). -/
def pyDigitBases : List Nat :=
  [0x30, 0x660, 0x6F0, 0x7C0, 0x966, 0x9E6, 0xA66, 0xAE6, 0xB66, 0xBE6,
   0xC66, 0xCE6, 0xD66, 0xDE6, 0xE50, 0xED0, 0xF20, 0x1040, 0x1090, 0x17E0,
   0x1810, 0x1946, 0x19D0, 0x1A80, 0x1A90, 0x1B50, 0x1BB0, 0x1C40, 0x1C50,
   0xA620, 0xA8D0, 0xA900, 0xA9D0, 0xA9F0, 0xAA50, 0xABF0, 0xFF10,
   0x104A0, 0x10D30, 0x11066, 0x110F0, 0x11136, 0x111D0, 0x112F0, 0x11450,
   0x114D0, 0x11650, 0x116C0, 0x11730, 0x118E0, 0x11950, 0x11C50, 0x11D50,
   0x11DA0, 0x16A60, 0x16AC0, 0x16B50, 0x1D7CE, 0x1D7D8, 0x1D7E2,
   0x1D7EC, 0x1D7F6, 0x1E140, 0x1E2F0, 0x1E950, 0x1FBF0]

/-- The decimal value of a character, when it is a decimal digit in the sense
of Python `int()` (any Unicode `Nd` digit). -/
def pyDigit? (c : Char) : Option Nat :=
  match pyDigitBases.find? (fun b => b ≤ c.toNat && c.toNat ≤ b + 9) with
  | some b => some (c.toNat - b)
  | none => none

/-- The digit-run loop of Python `int()` after its first digit, with PEP 515
underscore grouping: a single underscore may stand between two digits and
nothing else is accepted (`"1_0"` parses to `10`; `"1__0"`, `"1_"` raise).
`acc` is the value of the digits consumed so far. -/
def pyDigitsCore : Nat → List Char → Option Nat
  | acc, [] => some acc
  | acc, [c] =>
    match pyDigit? c with
    | some d => some (acc * 10 + d)
    | none => none
  | acc, c :: c' :: rest =>
    if c = '_' then
      match pyDigit? c' with
      | some d => pyDigitsCore (acc * 10 + d) rest
      | none => none
    else
      match pyDigit? c with
      | some d => pyDigitsCore (acc * 10 + d) (c' :: rest)
      | none => none

/-- The digit run Python `int()` accepts after the optional sign: it must
start (and hence end) with a decimal digit, with at most one grouping
underscore between consecutive digits. -/
def pyParseDigits (l : List Char) : Option Nat :=
  match l with
  | [] => none
  | c :: rest =>
    match pyDigit? c with
    | some d => pyDigitsCore d rest
    | none => none

/-- Model of Python `int(str)` on a stripped character list: an optional sign
followed by a digit run (Unicode decimal digits, PEP 515 underscore grouping);
anything else raises `ValueError` (modelled as `none`). -/
def pyIntOfData (l : List Char) : Option Int :=
  match l with
  | [] => none
  | c :: rest =>
    if c = '-' then (pyParseDigits rest).map (fun v => -(v : Int))
    else if c = '+' then (pyParseDigits rest).map (fun v => (v : Int))
    else (pyParseDigits (c :: rest)).map (fun v => (v : Int))

/-- Model of Python `int(s)`: strips the surrounding whitespace `int()`
tolerates and parses a signed decimal literal; `none` models the `ValueError`
raised on any other input. -/
def pyInt? (s : String) : Option Int := pyIntOfData (pyIntStripData s.data)

/-- Model of Python `s.split("_")`: split the character data at every
underscore, keeping empty pieces (`"".split("_") == [""]` likewise holds). -/
def pySplit (s : String) : List String := (s.data.splitOn '_').map fun l => ⟨l⟩

/-! ### The data model: `ProofNode` and flattened node records -/

/-- The `ProofNode` pydantic model: a proof step with optional explanation, an
ordered list of child nodes, and a caller-declared `is_leaf` flag. -/
inductive ProofNode : Type where
  | mk (step : String) (explanation : Option String) (children : List ProofNode)
      (is_leaf : Bool) : ProofNode

def ProofNode.step : ProofNode → String
  | .mk s _ _ _ => s

def ProofNode.explanation : ProofNode → Option String
  | .mk _ e _ _ => e

def ProofNode.children : ProofNode → List ProofNode
  | .mk _ _ cs _ => cs

def ProofNode.is_leaf : ProofNode → Bool
  | .mk _ _ _ b => b

mutual
/-- Number of nodes of the tree. -/
def ProofNode.size : ProofNode → Nat
  | .mk _ _ cs _ => 1 + ProofNode.sizeList cs

def ProofNode.sizeList : List ProofNode → Nat
  | [] => 0
  | c :: rest => ProofNode.size c + ProofNode.sizeList rest
end

/-- A flattened node record, as produced by `extract_all_nodes`: the four
fields of `extract_node_info` plus the `id`/`parent_id`/`depth` metadata the
traversal adds to the dictionary. -/
structure NodeRec where
  step : String
  explanation : Option String
  is_leaf : Bool
  child_count : Nat
  id : String := ""
  parent_id : Option String := none
  depth : Nat := 0
deriving DecidableEq, Repr

/-- Model of `extract_node_info`: the basic information of one node (the traversal then
sets the `id`, `parent_id` and `depth` keys on this dictionary). -/
def extract_node_info (node : ProofNode) : NodeRec :=
  { step := node.step, explanation := node.explanation, is_leaf := node.is_leaf,
    child_count := node.children.length }

/-! ### Flattening: `extract_all_nodes` and `extract_leaf_nodes` -/

mutual
/-- The inner `traverse` of `extract_all_nodes`: emit the current node's
record, then recurse into the children in order, child `i` getting id
`f"{node_id}_{i}"` and depth `depth + 1`. -/
def traverse : ProofNode → String → Option String → Nat → List NodeRec
  | node@(.mk _ _ cs _), node_id, parent_id, depth =>
    ({ extract_node_info node with id := node_id, parent_id := parent_id, depth := depth }) ::
      traverseList cs node_id 0 depth

def traverseList : List ProofNode → String → Nat → Nat → List NodeRec
  | [], _, _, _ => []
  | c :: rest, node_id, i, depth =>
    traverse c (node_id ++ "_" ++ natStr i) (some node_id) (depth + 1) ++
      traverseList rest node_id (i + 1) depth
end

/-- Model of `extract_all_nodes`: all nodes of the tree in a flat list, starting the
traversal at the root with id `"root"`, no parent, and depth `0`. -/
def extract_all_nodes (root : ProofNode) : List NodeRec := traverse root "root" none 0

/-- Model of `extract_leaf_nodes`: the flattened records with `is_leaf` set. -/
def extract_leaf_nodes (root : ProofNode) : List NodeRec :=
  (extract_all_nodes root).filter fun node => node.is_leaf

/-! ### Tree-structure projection and dict-to-node construction -/

/-- The JSON-shaped dictionary handled by `build_tree_structure` and
`dict_to_proof_node`; an `Option` field with value `none` models an absent key
(for `explanation`, Python's `.get` conflates an absent key with an explicit
`None` value, so a single `Option` models both). -/
inductive TreeDict : Type where
  | mk (step : Option String) (explanation : Option String) (is_leaf : Option Bool)
      (children : Option (List TreeDict)) : TreeDict

mutual
/-- Model of `build_tree_structure`: the hierarchical projection keeping only `step`,
`explanation`, `is_leaf`, and — only when the node has children — the
recursively projected `children` list. -/
def build_tree_structure : ProofNode → TreeDict
  | .mk s e cs b =>
    .mk (some s) e (some b) (if cs.isEmpty then none else some (buildChildren cs))

def buildChildren : List ProofNode → List TreeDict
  | [] => []
  | c :: rest => build_tree_structure c :: buildChildren rest
end

mutual
/-- Model of `dict_to_proof_node`: recursive construction of a `ProofNode` from a
dictionary: missing `step` defaults to `""`, missing `is_leaf` to `False`,
missing `children` to the empty list. -/
def dict_to_proof_node : TreeDict → ProofNode
  | .mk s e b cs? =>
    .mk (s.getD "") e
      (match cs? with
       | some cs => dictChildren cs
       | none => []) (b.getD false)

def dictChildren : List TreeDict → List ProofNode
  | [] => []
  | d :: ds => dict_to_proof_node d :: dictChildren ds
end

/-! ### Node lookup by id: `find_node_by_id` -/

/-- Model of the Python list indexing `l[k]`: a negative index counts from the
end; an index outside `[-len, len)` raises `IndexError` (the `.error` case). -/
def pyGetItem (l : List ProofNode) (k : Int) : Except Unit ProofNode :=
  let j : Int := if k < 0 then k + l.length else k
  if 0 ≤ j then
    match l.get? j.toNat with
    | some x => .ok x
    | none => .error ()
  else .error ()

/-- The walk of `find_node_by_id` over `parts[1:]`: parse each part with
`int(...)` (a failure raises `ValueError`), descend into `children[child_index]`
when `child_index < len(children)`, and return `None` otherwise. -/
def findLoop : ProofNode → List String → Except Unit (Option ProofNode)
  | current, [] => .ok (some current)
  | current, part :: rest =>
    match pyInt? part with
    | none => .error ()
    | some child_index =>
      if child_index < (current.children.length : Int) then
        match pyGetItem current.children child_index with
        | .ok c => findLoop c rest
        | .error e => .error e
      else .ok none

/-- Model of `find_node_by_id`: resolve a path-encoded id against the tree, splitting on
`"_"` and skipping the first part. `.ok none` is Python's `return None`;
`.error ()` is an uncaught `ValueError`/`IndexError`. -/
def find_node_by_id (root : ProofNode) (target_id : String) : Except Unit (Option ProofNode) :=
  if target_id = "root" then .ok (some root)
  else findLoop root (pySplit target_id).tail

/-! ### Root-to-leaf path: `find_path_to_leaf` -/

/-- The `while current_id is not None` loop of `find_path_to_leaf`: look the
current id up, append the record, move to its `parent_id`; stop on a missing id
or an absent parent. The `fuel` argument is a termination bound only: the
caller passes one more than the record count, which the lemmas below show is
never exhausted on ids produced by `extract_all_nodes`. -/
def walkUp (lookup : String → Option NodeRec) : Nat → Option String → List NodeRec → List NodeRec
  | 0, _, path => path
  | _ + 1, none, path => path
  | fuel + 1, some current_id, path =>
    match lookup current_id with
    | some r => walkUp lookup fuel r.parent_id (path ++ [r])
    | none => path

/-- Model of `find_path_to_leaf`: flatten the tree, index the records by id, walk the
`parent_id` links backward from the target, and reverse into root-first order. -/
def find_path_to_leaf (root : ProofNode) (leaf_id : String) : List NodeRec :=
  let all_nodes := extract_all_nodes root
  let node_dict := fun i => all_nodes.find? fun r => r.id == i
  (walkUp node_dict (all_nodes.length + 1) (some leaf_id) []).reverse

/-! ### Assumption pairing: `get_nodes_with_assumptions` -/

/-- Model of `get_nodes_with_assumptions`: each flattened record paired with the
records whose `parent_id` equals its id, in flattened order (the Python code
groups the records by `parent_id` in list order, which is this filter). -/
def get_nodes_with_assumptions (root : ProofNode) : List (NodeRec × List NodeRec) :=
  let all_nodes := extract_all_nodes root
  all_nodes.map fun node => (node, all_nodes.filter fun r => r.parent_id == some node.id)

/-! ### Validation pipeline: `maestro_rag` and `process_node_with_assumptions` -/

/-- What `maestro_rag` returns: either one of the strings
`"success"`/`"failure"`, or — on the judge-parse-failure fallback — the value
produced by re-running `process_theorem(request=TheoremRequest(theorem=thm),
parse_tree=True)`, recorded here by the theorem text that flow is given. -/
inductive MaestroResult : Type where
  | answer (s : String)
  | recomputed (thm : String)
deriving DecidableEq, Repr

/-- The hard-coded theorem used by the fallback when no original theorem is
supplied (or the supplied one is the empty string, which is falsy in Python). -/
def defaultTheorem : String :=
  "The equation x^2 + 2x = i has two complex solutions and determine the product of their real parts."

/-- Model of `theorem_to_use = original_theorem if original_theorem else <default>`:
Python truthiness makes both `None` and `""` fall back to the default. -/
def theoremToUse (original_theorem : Option String) : String :=
  match original_theorem with
  | some t => if t = "" then defaultTheorem else t
  | none => defaultTheorem

/-- Model of `maestro_rag`, with the two external collaborators replaced by their
observable output: `judge_raw` is the judge completion's message content, of
which `gpt_call` returns `content.strip()`. The tri-state dispatch is
`int(check) == 1 → "success"`, any other parsed integer `→ "failure"`, and a
`ValueError` from `int` triggers the decomposition-flow fallback. -/
def maestro_rag (step : String) (assumptions : List String)
    (original_theorem : Option String) (judge_raw : String) : MaestroResult :=
  let check := pyStrip judge_raw
  match pyInt? check with
  | some k => if k = 1 then .answer "success" else .answer "failure"
  | none => .recomputed (theoremToUse original_theorem)

/-- The assumption metadata embedded in a processed node (Python reads
`a["step"]`, `a.get("explanation", "")`, `a.get("is_leaf", False)`; the keys
are always present on flattened records, `explanation` possibly as `None`). -/
structure AssumptionInfo where
  step : String
  explanation : Option String
  is_leaf : Bool
deriving DecidableEq, Repr

/-- The result dictionary of `process_node_with_assumptions`. -/
structure ProcessedNode where
  step : String
  explanation : Option String
  is_leaf : Bool
  assumption_count : Nat
  assumptions : List AssumptionInfo
  validation_result : MaestroResult ⊕ String
deriving DecidableEq, Repr

/-- Model of `process_node_with_assumptions`, with the external interaction abstracted
as `oracle`: `.ok judge_raw` is a completed `maestro_rag` round returning the
judge text, `.error ()` any exception raised during the call (caught and
mapped to `"error"`). The second component counts `maestro_rag` invocations.
`validation_result` is `.inl` for a value returned by `maestro_rag` and `.inr`
for the sentinel strings set without calling it. -/
def process_node_with_assumptions (node : NodeRec) (assumptions : List NodeRec)
    (original_theorem : Option String) (oracle : Except Unit String) :
    ProcessedNode × Nat :=
  let base : ProcessedNode :=
    { step := node.step, explanation := node.explanation, is_leaf := node.is_leaf,
      assumption_count := assumptions.length,
      assumptions := assumptions.map fun a =>
        { step := a.step, explanation := a.explanation, is_leaf := a.is_leaf },
      validation_result := .inr "" }
  if assumptions.isEmpty then
    ({ base with validation_result := .inr "skipped - no assumptions" }, 0)
  else
    match oracle with
    | .ok judge_raw =>
      let vr := maestro_rag node.step (assumptions.map fun a => a.step)
        original_theorem judge_raw
      ({ base with validation_result := .inl vr }, 1)
    | .error _ => ({ base with validation_result := .inr "error" }, 1)

/-! ### Paths: the specification-side view of the id scheme -/

mutual
/-- All node positions of the tree as index paths, in the pre-order the
traversal visits them: the root is `[]`, and `i :: p` is position `p` inside
child `i`. -/
def allPaths : ProofNode → List (List Nat)
  | .mk _ _ cs _ => [] :: allPathsList cs 0

def allPathsList : List ProofNode → Nat → List (List Nat)
  | [], _ => []
  | c :: rest, i => (allPaths c).map (fun p => i :: p) ++ allPathsList rest (i + 1)
end

/-- The node at an index path, if every index is in range. -/
def nodeAt? : ProofNode → List Nat → Option ProofNode
  | t, [] => some t
  | t, i :: p =>
    match t.children.get? i with
    | some c => nodeAt? c p
    | none => none

/-- The id blocks contributed by an index path: `"_i1_i2…"` as characters. -/
def joinBlocks (p : List Nat) : List Char := (p.map fun i => '_' :: natRepr i).flatten

/-- The id that the flattening assigns to the node at path `p` below a node
with id `base`. -/
def idFrom (base : String) (p : List Nat) : String := ⟨base.data ++ joinBlocks p⟩

/-- The flattened id of the node at path `p`: `"root"` followed by one
underscore-separated decimal index per step. -/
def idOfPath (p : List Nat) : String := idFrom "root" p

/-- The flattened record of the node at path `p` under an arbitrary traversal
start: all fields are determined by the path and the subtree there (for paths
that exist in `t`; the `getD` default is never reached on them). -/
def recFrom (t : ProofNode) (base : String) (pid : Option String) (d : Nat)
    (p : List Nat) : NodeRec :=
  let n := (nodeAt? t p).getD t
  { step := n.step, explanation := n.explanation, is_leaf := n.is_leaf,
    child_count := n.children.length,
    id := idFrom base p,
    parent_id := if p = [] then pid else some (idFrom base p.dropLast),
    depth := d + p.length }

/-- The flattened record of the node at path `p`, as `extract_all_nodes`
produces it. -/
def recAt (t : ProofNode) (p : List Nat) : NodeRec := recFrom t "root" none 0 p

/-- Position of the first occurrence of `x` in a list (list length if absent). -/
def posOf {α : Type _} [DecidableEq α] (x : α) : List α → Nat
  | [] => 0
  | y :: l => if y = x then 0 else posOf x l + 1

/-- Position of the record with the id of path `p` in the flattened list. -/
def pathIndex (t : ProofNode) (p : List Nat) : Nat :=
  posOf (idOfPath p) ((extract_all_nodes t).map fun r => r.id)

/-! ### Sample trees used by the witnesses -/

def T_A : ProofNode := .mk "A" none [] true

def T_B : ProofNode := .mk "B" (some "why") [] true

def T0 : ProofNode := .mk "T" none [T_A, T_B] false

/-- Number of children of the node at path `p` (the node itself for the junk
default, never reached on valid paths). -/
def childCountAt (t : ProofNode) (p : List Nat) : Nat :=
  ((nodeAt? t p).getD t).children.length

/-- The flattened records of the immediate children of the node at path `p`,
in child order. -/
def childRecords (t : ProofNode) (p : List Nat) : List NodeRec :=
  (List.range (childCountAt t p)).map fun i => recAt t (p ++ [i])

/-! ### Basic structural lemmas -/

@[simp] theorem ProofNode.step_mk (s e cs b) : (ProofNode.mk s e cs b).step = s := rfl

@[simp] theorem ProofNode.explanation_mk (s e cs b) :
    (ProofNode.mk s e cs b).explanation = e := rfl

@[simp] theorem ProofNode.children_mk (s e cs b) :
    (ProofNode.mk s e cs b).children = cs := rfl

@[simp] theorem ProofNode.is_leaf_mk (s e cs b) : (ProofNode.mk s e cs b).is_leaf = b := rfl

/-- Induction over a `ProofNode` with the hypothesis available for each child. -/
theorem ProofNode.indOn {motive : ProofNode → Prop}
    (h : ∀ s e cs b, (∀ c ∈ cs, motive c) → motive (.mk s e cs b)) :
    ∀ t, motive t
  | .mk s e cs b => h s e cs b (fun c hc => ProofNode.indOn h c)
termination_by t => sizeOf t
decreasing_by
  simp only [ProofNode.mk.sizeOf_spec]
  have := List.sizeOf_lt_of_mem hc
  omega

/-! ### Decimal rendering: basic facts -/

theorem natReprCore_succ (fuel n : Nat) :
    natReprCore (fuel + 1) n =
      if n < 10 then [digitChar n] else natReprCore fuel (n / 10) ++ [digitChar (n % 10)] := rfl

theorem natReprCore_fuel (n : Nat) : ∀ (fuel fuel' : Nat), n < fuel → n < fuel' →
    natReprCore fuel n = natReprCore fuel' n := by
  induction n using Nat.strong_induction_on with
  | _ n ih =>
    intro fuel fuel' h h'
    match fuel, fuel' with
    | f + 1, f' + 1 =>
      by_cases h10 : n < 10
      · rw [natReprCore_succ, natReprCore_succ, if_pos h10, if_pos h10]
      · have hd : n / 10 < n := Nat.div_lt_self (by omega) (by omega)
        rw [natReprCore_succ, natReprCore_succ, if_neg h10, if_neg h10,
          ih (n / 10) hd f f' (by omega) (by omega)]

theorem natRepr_unfold (n : Nat) :
    natRepr n = if n < 10 then [digitChar n] else natRepr (n / 10) ++ [digitChar (n % 10)] := by
  by_cases h10 : n < 10
  · rw [natRepr, natReprCore_succ, if_pos h10, if_pos h10]
  · have hd : n / 10 < n := Nat.div_lt_self (by omega) (by omega)
    rw [natRepr, natReprCore_succ, if_neg h10, if_neg h10,
      natReprCore_fuel (n / 10) n (n / 10 + 1) (by omega) (by omega)]
    rfl

theorem digitChar_toNat {d : Nat} (h : d < 10) : (digitChar d).toNat = 48 + d := by
  interval_cases d <;> rfl

theorem natRepr_ne_nil (n : Nat) : natRepr n ≠ [] := by
  rw [natRepr_unfold]
  split <;> simp

theorem natRepr_toNat (n : Nat) : ∀ c ∈ natRepr n, 48 ≤ c.toNat ∧ c.toNat ≤ 57 := by
  induction n using Nat.strong_induction_on with
  | _ n ih =>
    rw [natRepr_unfold]
    by_cases h10 : n < 10
    · simp only [h10, if_true, List.mem_singleton]
      rintro c rfl
      rw [digitChar_toNat h10]
      omega
    · have hd : n / 10 < n := Nat.div_lt_self (by omega) (by omega)
      have hmod : n % 10 < 10 := Nat.mod_lt _ (by omega)
      simp only [h10, if_false, List.mem_append, List.mem_singleton]
      rintro c (hc | rfl)
      · exact ih _ hd c hc
      · rw [digitChar_toNat hmod]
        omega

theorem underscore_not_mem_natRepr (n : Nat) : '_' ∉ natRepr n := by
  intro hmem
  have h2 := (natRepr_toNat n _ hmem).2
  exact absurd h2 (by decide)

theorem digitsToNat_natRepr (n : Nat) : digitsToNat (natRepr n) = n := by
  induction n using Nat.strong_induction_on with
  | _ n ih =>
    rw [natRepr_unfold]
    by_cases h10 : n < 10
    · simp [h10, digitsToNat, digitChar_toNat h10]
    · have hd : n / 10 < n := Nat.div_lt_self (by omega) (by omega)
      have hmod : n % 10 < 10 := Nat.mod_lt _ (by omega)
      simp only [h10, if_false, digitsToNat, List.foldl_append, List.foldl_cons, List.foldl_nil]
      have := ih _ hd
      simp only [digitsToNat] at this
      rw [this, digitChar_toNat hmod]
      omega

theorem natRepr_injective : Function.Injective natRepr := by
  intro m n h
  have hm := digitsToNat_natRepr m
  rw [h, digitsToNat_natRepr] at hm
  omega

theorem natStr_injective : Function.Injective natStr := by
  intro m n h
  exact natRepr_injective (congrArg String.data h)

/-! ### Python `int()` on decimal renderings -/

theorem digit_not_pySpace {c : Char} (h1 : 48 ≤ c.toNat) (h2 : c.toNat ≤ 57) :
    isPySpace c = false := by
  simp only [isPySpace, decide_eq_false_iff_not]
  omega

theorem dropWhile_pySpace_of_digits {l : List Char}
    (h : ∀ c ∈ l, 48 ≤ c.toNat ∧ c.toNat ≤ 57) : l.dropWhile isPySpace = l := by
  cases l with
  | nil => rfl
  | cons c t =>
    rcases h c (List.mem_cons_self c t) with ⟨h1, h2⟩
    rw [List.dropWhile_cons]
    simp [digit_not_pySpace h1 h2]

theorem pyStripData_of_digits {l : List Char}
    (h : ∀ c ∈ l, 48 ≤ c.toNat ∧ c.toNat ≤ 57) : pyStripData l = l := by
  unfold pyStripData
  rw [dropWhile_pySpace_of_digits h,
    dropWhile_pySpace_of_digits (fun c hc => h c (List.mem_reverse.mp hc)),
    List.reverse_reverse]

theorem digit_not_pyIntSpace {c : Char} (h1 : 48 ≤ c.toNat) (h2 : c.toNat ≤ 57) :
    isPyIntSpace c = false := by
  simp only [isPyIntSpace, decide_eq_false_iff_not]
  omega

theorem dropWhile_pyIntSpace_of_digits {l : List Char}
    (h : ∀ c ∈ l, 48 ≤ c.toNat ∧ c.toNat ≤ 57) : l.dropWhile isPyIntSpace = l := by
  cases l with
  | nil => rfl
  | cons c t =>
    rcases h c (List.mem_cons_self c t) with ⟨h1, h2⟩
    rw [List.dropWhile_cons]
    simp [digit_not_pyIntSpace h1 h2]

theorem pyIntStripData_of_digits {l : List Char}
    (h : ∀ c ∈ l, 48 ≤ c.toNat ∧ c.toNat ≤ 57) : pyIntStripData l = l := by
  unfold pyIntStripData
  rw [dropWhile_pyIntSpace_of_digits h,
    dropWhile_pyIntSpace_of_digits (fun c hc => h c (List.mem_reverse.mp hc)),
    List.reverse_reverse]

theorem digit_ne_underscore {c : Char} (h2 : c.toNat ≤ 57) : c ≠ '_' := by
  rintro rfl
  exact absurd h2 (by decide)

theorem digit_ne_minus {c : Char} (h1 : 48 ≤ c.toNat) : c ≠ '-' := by
  rintro rfl
  exact absurd h1 (by decide)

theorem digit_ne_plus {c : Char} (h1 : 48 ≤ c.toNat) : c ≠ '+' := by
  rintro rfl
  exact absurd h1 (by decide)

theorem pyDigit?_ascii {c : Char} (h1 : 48 ≤ c.toNat) (h2 : c.toNat ≤ 57) :
    pyDigit? c = some (c.toNat - 48) := by
  have hpred : ((fun b : Nat => b ≤ c.toNat && c.toNat ≤ b + 9) 0x30) = true := by
    simp only [Bool.and_eq_true, decide_eq_true_eq]
    exact ⟨h1, by omega⟩
  have hfind : pyDigitBases.find? (fun b => b ≤ c.toNat && c.toNat ≤ b + 9) = some 0x30 := by
    have hcons : pyDigitBases = 0x30 :: pyDigitBases.tail := rfl
    rw [hcons]
    exact List.find?_cons_of_pos _ hpred
  unfold pyDigit?
  rw [hfind]

theorem pyDigitsCore_one (acc : Nat) (c : Char) :
    pyDigitsCore acc [c] =
      match pyDigit? c with
      | some d => some (acc * 10 + d)
      | none => none := rfl

theorem pyDigitsCore_cons2 (acc : Nat) (c c' : Char) (rest : List Char) :
    pyDigitsCore acc (c :: c' :: rest) =
      if c = '_' then
        match pyDigit? c' with
        | some d => pyDigitsCore (acc * 10 + d) rest
        | none => none
      else
        match pyDigit? c with
        | some d => pyDigitsCore (acc * 10 + d) (c' :: rest)
        | none => none := rfl

theorem pyDigitsCore_digits : ∀ (l : List Char) (acc : Nat),
    (∀ c ∈ l, 48 ≤ c.toNat ∧ c.toNat ≤ 57) →
    pyDigitsCore acc l = some (l.foldl (fun a c => a * 10 + (c.toNat - 48)) acc) := by
  intro l
  induction l with
  | nil => intro acc _; rfl
  | cons c rest ih =>
    intro acc h
    rcases h c (List.mem_cons_self c rest) with ⟨h1, h2⟩
    cases rest with
    | nil =>
      rw [pyDigitsCore_one, pyDigit?_ascii h1 h2]
      rfl
    | cons c' rest' =>
      rw [pyDigitsCore_cons2, if_neg (digit_ne_underscore h2), pyDigit?_ascii h1 h2]
      show pyDigitsCore (acc * 10 + (c.toNat - 48)) (c' :: rest') = _
      rw [ih _ (fun x hx => h x (List.mem_cons_of_mem _ hx))]
      rfl

theorem pyParseDigits_digits {l : List Char} (hne : l ≠ [])
    (h : ∀ c ∈ l, 48 ≤ c.toNat ∧ c.toNat ≤ 57) :
    pyParseDigits l = some (digitsToNat l) := by
  match l, hne with
  | c :: rest, _ =>
    rcases h c (List.mem_cons_self c rest) with ⟨h1, h2⟩
    rw [pyParseDigits, pyDigit?_ascii h1 h2]
    show pyDigitsCore (c.toNat - 48) rest = some (digitsToNat (c :: rest))
    rw [pyDigitsCore_digits rest _ (fun c' hc' => h c' (List.mem_cons_of_mem _ hc'))]
    unfold digitsToNat
    simp only [List.foldl_cons, Nat.zero_mul, Nat.zero_add]

theorem pyIntOfData_digits {l : List Char} (hne : l ≠ [])
    (h : ∀ c ∈ l, 48 ≤ c.toNat ∧ c.toNat ≤ 57) :
    pyIntOfData l = some (digitsToNat l : Int) := by
  match l, hne with
  | c :: rest, _ =>
    rcases h c (List.mem_cons_self c rest) with ⟨h1, h2⟩
    rw [pyIntOfData, if_neg (digit_ne_minus h1), if_neg (digit_ne_plus h1),
      pyParseDigits_digits (List.cons_ne_nil c rest) h]
    rfl

theorem pyInt?_natStr (n : Nat) : pyInt? (natStr n) = some (n : Int) := by
  show pyIntOfData (pyIntStripData (natRepr n)) = _
  rw [pyIntStripData_of_digits (natRepr_toNat n),
    pyIntOfData_digits (natRepr_ne_nil n) (natRepr_toNat n), digitsToNat_natRepr]

/-! ### The id encoding and `split("_")` -/

theorem joinBlocks_nil : joinBlocks [] = [] := rfl

theorem joinBlocks_cons (i : Nat) (p : List Nat) :
    joinBlocks (i :: p) = '_' :: (natRepr i ++ joinBlocks p) := by
  simp [joinBlocks]

theorem intercalate_cons_cons {α : Type _} (sep : List α) (a b : List α) (l : List (List α)) :
    List.intercalate sep (a :: b :: l) = a ++ sep ++ List.intercalate sep (b :: l) := by
  simp [List.intercalate, List.intersperse_cons_cons, List.append_assoc]

theorem joinBlocks_eq_intercalate :
    ∀ (p : List Nat) (a : List Char),
      a ++ joinBlocks p = ['_'].intercalate (a :: p.map natRepr) := by
  intro p
  induction p with
  | nil => intro a; simp [joinBlocks, List.intercalate]
  | cons i p ih =>
    intro a
    rw [joinBlocks_cons, List.map_cons, intercalate_cons_cons, ← ih (natRepr i)]
    simp

theorem idFrom_data (base : String) (p : List Nat) :
    (idFrom base p).data = base.data ++ joinBlocks p := rfl

theorem idFrom_nil (base : String) : idFrom base [] = base := by
  apply String.ext
  simp [idFrom_data, joinBlocks_nil]

theorem idFrom_cons (base : String) (i : Nat) (p : List Nat) :
    idFrom (base ++ "_" ++ natStr i) p = idFrom base (i :: p) := by
  apply String.ext
  simp only [idFrom_data, String.data_append, joinBlocks_cons]
  rw [show (natStr i).data = natRepr i from rfl]
  simp [List.append_assoc]

theorem splitOn_idData (p : List Nat) :
    ("root".data ++ joinBlocks p).splitOn '_' = "root".data :: p.map natRepr := by
  rw [joinBlocks_eq_intercalate]
  apply List.splitOn_intercalate
  · intro l hl
    rcases List.mem_cons.mp hl with rfl | hl
    · decide
    · rcases List.mem_map.mp hl with ⟨n, _, rfl⟩
      exact underscore_not_mem_natRepr n
  · simp

theorem pySplit_idOfPath (p : List Nat) :
    pySplit (idOfPath p) = "root" :: p.map natStr := by
  show ((("root".data ++ joinBlocks p).splitOn '_').map fun l => (⟨l⟩ : String)) = _
  rw [splitOn_idData]
  simp only [List.map_cons, List.map_map]
  rfl

theorem idOfPath_injective : Function.Injective idOfPath := by
  intro p q h
  have hd : "root".data ++ joinBlocks p = "root".data ++ joinBlocks q := congrArg String.data h
  have hs := congrArg (List.splitOn '_') hd
  rw [splitOn_idData, splitOn_idData] at hs
  have : p.map natRepr = q.map natRepr := by simpa using hs
  exact (List.map_injective_iff.mpr natRepr_injective) this

/-! ### Paths of a tree: membership, distinctness, pre-order -/

theorem mem_of_get? {α : Type _} {l : List α} {n : Nat} {a : α} (h : l.get? n = some a) :
    a ∈ l := by
  rcases List.get?_eq_some.mp h with ⟨hlt, rfl⟩
  exact List.get_mem l _ hlt

theorem allPathsList_nil (i0 : Nat) : allPathsList [] i0 = [] := by
  rw [allPathsList]

theorem allPathsList_cons (c : ProofNode) (rest : List ProofNode) (i0 : Nat) :
    allPathsList (c :: rest) i0 =
      (allPaths c).map (fun p => i0 :: p) ++ allPathsList rest (i0 + 1) := by
  rw [allPathsList]

theorem allPaths_mk (s e cs b) :
    allPaths (.mk s e cs b) = [] :: allPathsList cs 0 := by
  rw [allPaths]

theorem mem_allPathsList {cs : List ProofNode} : ∀ {i0 : Nat} {p : List Nat},
    (p ∈ allPathsList cs i0 ↔
      ∃ j q c, cs.get? j = some c ∧ q ∈ allPaths c ∧ p = (i0 + j) :: q) := by
  induction cs with
  | nil => intro i0 p; simp [allPathsList_nil]
  | cons c rest ih =>
    intro i0 p
    rw [allPathsList_cons]
    simp only [List.mem_append, List.mem_map, ih]
    constructor
    · rintro (⟨q, hq, rfl⟩ | ⟨j, q, c', hget, hq, rfl⟩)
      · exact ⟨0, q, c, rfl, hq, by simp⟩
      · exact ⟨j + 1, q, c', by simpa using hget, hq, by simp; omega⟩
    · rintro ⟨j, q, c', hget, hq, rfl⟩
      match j with
      | 0 =>
        simp only [List.get?_cons_zero, Option.some.injEq] at hget
        subst hget
        exact Or.inl ⟨q, hq, by simp⟩
      | j + 1 =>
        refine Or.inr ⟨j, q, c', by simpa using hget, hq, ?_⟩
        simp; omega

theorem mem_allPaths {t : ProofNode} {p : List Nat} :
    p ∈ allPaths t ↔
      p = [] ∨ ∃ i q c, t.children.get? i = some c ∧ q ∈ allPaths c ∧ p = i :: q := by
  match t with
  | .mk s e cs b =>
    rw [allPaths_mk]
    simp only [List.mem_cons, ProofNode.children_mk, mem_allPathsList]
    constructor
    · rintro (rfl | ⟨j, q, c, hget, hq, rfl⟩)
      · exact Or.inl rfl
      · exact Or.inr ⟨j, q, c, hget, hq, by simp⟩
    · rintro (rfl | ⟨i, q, c, hget, hq, rfl⟩)
      · exact Or.inl rfl
      · exact Or.inr ⟨i, q, c, hget, hq, by simp⟩

theorem nil_mem_allPaths (t : ProofNode) : [] ∈ allPaths t :=
  mem_allPaths.mpr (Or.inl rfl)

theorem ne_nil_of_mem_allPathsList {cs : List ProofNode} {i0 : Nat} {p : List Nat}
    (h : p ∈ allPathsList cs i0) : p ≠ [] := by
  rcases mem_allPathsList.mp h with ⟨j, q, c, _, _, rfl⟩
  simp

theorem head_ge_of_mem_allPathsList {cs : List ProofNode} {i0 : Nat} {p : List Nat}
    (h : p ∈ allPathsList cs i0) : ∃ j q, p = j :: q ∧ i0 ≤ j := by
  rcases mem_allPathsList.mp h with ⟨j, q, c, _, _, rfl⟩
  exact ⟨i0 + j, q, rfl, by omega⟩

theorem nodeAt?_isSome {t : ProofNode} {p : List Nat} (h : p ∈ allPaths t) :
    ∃ m, nodeAt? t p = some m := by
  induction t using ProofNode.indOn generalizing p with
  | _ s e cs b IH =>
    rcases mem_allPaths.mp h with rfl | ⟨i, q, c, hget, hq, rfl⟩
    · exact ⟨_, rfl⟩
    · rcases IH c (mem_of_get? hget) hq with ⟨m, hm⟩
      have hget' : cs[i]? = some c := by simpa [List.get?_eq_getElem?] using hget
      exact ⟨m, by simp [nodeAt?, hget', hm]⟩

theorem dropLast_mem_allPaths {t : ProofNode} {p : List Nat} (h : p ∈ allPaths t) :
    p.dropLast ∈ allPaths t := by
  induction t using ProofNode.indOn generalizing p with
  | _ s e cs b IH =>
    rcases mem_allPaths.mp h with rfl | ⟨i, q, c, hget, hq, rfl⟩
    · exact nil_mem_allPaths _
    · match q with
      | [] => exact nil_mem_allPaths _
      | x :: xs =>
        refine mem_allPaths.mpr (Or.inr ⟨i, (x :: xs).dropLast, c, hget, ?_, ?_⟩)
        · exact IH c (mem_of_get? hget) hq
        · simp

theorem allPathsList_nodup {cs : List ProofNode} (h : ∀ c ∈ cs, (allPaths c).Nodup) :
    ∀ i0 : Nat, (allPathsList cs i0).Nodup := by
  induction cs with
  | nil => intro i0; simp [allPathsList_nil]
  | cons c rest ih =>
    intro i0
    rw [allPathsList_cons, List.nodup_append]
    refine ⟨(h c (List.mem_cons_self c rest)).map ?_, ih (fun c' hc' => h c' (List.mem_cons_of_mem _ hc')) (i0 + 1), ?_⟩
    · intro p q hpq
      simpa using hpq
    · intro p hp hq
      rcases List.mem_map.mp hp with ⟨q, _, rfl⟩
      rcases head_ge_of_mem_allPathsList hq with ⟨j, q', heq, hge⟩
      simp only [List.cons.injEq] at heq
      omega

theorem allPaths_nodup (t : ProofNode) : (allPaths t).Nodup := by
  induction t using ProofNode.indOn with
  | _ s e cs b IH =>
    rw [allPaths_mk]
    refine List.Nodup.cons ?_ (allPathsList_nodup IH 0)
    intro hmem
    exact ne_nil_of_mem_allPathsList hmem rfl

theorem allPathsList_sorted {cs : List ProofNode}
    (h : ∀ c ∈ cs, (allPaths c).Pairwise (List.Lex (· < ·))) :
    ∀ i0 : Nat, (allPathsList cs i0).Pairwise (List.Lex (· < ·)) := by
  induction cs with
  | nil => intro i0; simp [allPathsList_nil]
  | cons c rest ih =>
    intro i0
    rw [allPathsList_cons, List.pairwise_append]
    refine ⟨(h c (List.mem_cons_self c rest)).map _ (fun p q hpq => List.Lex.cons hpq),
      ih (fun c' hc' => h c' (List.mem_cons_of_mem _ hc')) (i0 + 1), ?_⟩
    intro p hp q hq
    rcases List.mem_map.mp hp with ⟨p', _, rfl⟩
    rcases head_ge_of_mem_allPathsList hq with ⟨j, q', rfl, hge⟩
    exact List.Lex.rel (by omega)

theorem allPaths_sorted (t : ProofNode) : (allPaths t).Pairwise (List.Lex (· < ·)) := by
  induction t using ProofNode.indOn with
  | _ s e cs b IH =>
    rw [allPaths_mk]
    refine List.Pairwise.cons ?_ (allPathsList_sorted IH 0)
    intro p hp
    rcases head_ge_of_mem_allPathsList hp with ⟨j, q, rfl, _⟩
    exact List.Lex.nil

theorem allPathsList_length {cs : List ProofNode}
    (h : ∀ c ∈ cs, (allPaths c).length = c.size) :
    ∀ i0 : Nat, (allPathsList cs i0).length = ProofNode.sizeList cs := by
  induction cs with
  | nil => intro i0; simp [allPathsList_nil, ProofNode.sizeList]
  | cons c rest ih =>
    intro i0
    rw [allPathsList_cons, ProofNode.sizeList]
    simp only [List.length_append, List.length_map]
    rw [h c (List.mem_cons_self c rest),
      ih (fun c' hc' => h c' (List.mem_cons_of_mem _ hc')) (i0 + 1)]

theorem allPaths_length (t : ProofNode) : (allPaths t).length = t.size := by
  induction t using ProofNode.indOn with
  | _ s e cs b IH =>
    rw [allPaths_mk, ProofNode.size]
    simp only [List.length_cons]
    rw [allPathsList_length IH 0]
    omega

/-! ### The master flattening lemma: `traverse` as a map over paths -/

theorem traverseList_nil (base : String) (i0 d : Nat) : traverseList [] base i0 d = [] := by
  rw [traverseList]

theorem traverseList_cons (c : ProofNode) (rest : List ProofNode) (base : String) (i0 d : Nat) :
    traverseList (c :: rest) base i0 d =
      traverse c (base ++ "_" ++ natStr i0) (some base) (d + 1) ++
        traverseList rest base (i0 + 1) d := by
  rw [traverseList]

theorem traverse_mk (s e cs b) (base : String) (pid : Option String) (d : Nat) :
    traverse (.mk s e cs b) base pid d =
      ({ extract_node_info (.mk s e cs b) with id := base, parent_id := pid, depth := d }) ::
        traverseList cs base 0 d := by
  rw [traverse.eq_1]

theorem recFrom_child {s e cs b c} {i0 : Nat} (hget : cs.get? i0 = some c)
    {q : List Nat} (hq : q ∈ allPaths c) (base : String) (pid : Option String) (d : Nat) :
    recFrom c (base ++ "_" ++ natStr i0) (some base) (d + 1) q =
      recFrom (.mk s e cs b) base pid d (i0 :: q) := by
  rcases nodeAt?_isSome hq with ⟨m, hm⟩
  have hget' : cs[i0]? = some c := by simpa [List.get?_eq_getElem?] using hget
  have hnode : nodeAt? (ProofNode.mk s e cs b) (i0 :: q) = some m := by
    simp [nodeAt?, hget', hm]
  simp only [recFrom, hm, hnode, Option.getD_some, NodeRec.mk.injEq, List.length_cons,
    true_and, and_true]
  refine ⟨idFrom_cons base i0 q, ?_, by omega⟩
  match q with
  | [] => simp [idFrom_nil]
  | x :: xs =>
    simp only [List.cons_ne_nil, if_false, List.dropLast_cons₂, Option.some.injEq,
      reduceCtorEq]
    rw [idFrom_cons]

theorem traverseList_eq {s e cs b}
    (IH : ∀ c ∈ cs, ∀ (base : String) (pid : Option String) (d : Nat),
      traverse c base pid d = (allPaths c).map (recFrom c base pid d)) :
    ∀ (cs' : List ProofNode) (i0 : Nat), (∀ j, cs'.get? j = cs.get? (i0 + j)) →
      ∀ (base : String) (pid : Option String) (d : Nat),
        traverseList cs' base i0 d =
          (allPathsList cs' i0).map (recFrom (.mk s e cs b) base pid d) := by
  intro cs'
  induction cs' with
  | nil =>
    intro i0 _ base pid d
    rw [traverseList_nil, allPathsList_nil]
    rfl
  | cons c rest ihl =>
    intro i0 hsub base pid d
    have hc : cs.get? i0 = some c := (hsub 0).symm
    have hcmem : c ∈ cs := mem_of_get? hc
    rw [traverseList_cons, allPathsList_cons, List.map_append]
    congr 1
    · rw [IH c hcmem _ (some base) (d + 1), List.map_map]
      exact List.map_congr_left fun q hq => recFrom_child hc hq base pid d
    · exact ihl (i0 + 1)
        (fun j => ((hsub (j + 1)).trans (by rw [show i0 + (j + 1) = i0 + 1 + j by omega])))
        base pid d

theorem traverse_eq (t : ProofNode) :
    ∀ (base : String) (pid : Option String) (d : Nat),
      traverse t base pid d = (allPaths t).map (recFrom t base pid d) := by
  induction t using ProofNode.indOn with
  | _ s e cs b IH =>
    intro base pid d
    rw [traverse_mk, allPaths_mk, List.map_cons]
    congr 1
    · simp [recFrom, extract_node_info, nodeAt?, idFrom_nil]
    · exact traverseList_eq IH cs 0 (fun j => by simp) base pid d

/-- The function `extract_all_nodes` is exactly the record of every path, in the pre-order
of `allPaths`. -/
theorem extract_all_nodes_eq (t : ProofNode) :
    extract_all_nodes t = (allPaths t).map (recAt t) := by
  rw [extract_all_nodes, traverse_eq]
  rfl

/-! ### Record-level consequences of the master lemma -/

theorem recAt_id (t : ProofNode) (p : List Nat) : (recAt t p).id = idOfPath p := rfl

theorem recAt_eq_of_nodeAt {t : ProofNode} {p : List Nat} {m : ProofNode}
    (hm : nodeAt? t p = some m) :
    recAt t p = { step := m.step, explanation := m.explanation, is_leaf := m.is_leaf,
                  child_count := m.children.length, id := idOfPath p,
                  parent_id := if p = [] then none else some (idOfPath p.dropLast),
                  depth := p.length } := by
  simp [recAt, recFrom, hm, idOfPath]

theorem recAt_parent_nil (t : ProofNode) : (recAt t []).parent_id = none := rfl

theorem recAt_parent_of_ne_nil (t : ProofNode) {p : List Nat} (h : p ≠ []) :
    (recAt t p).parent_id = some (idOfPath p.dropLast) := by
  simp [recAt, recFrom, h, idOfPath]

theorem recAt_depth (t : ProofNode) (p : List Nat) : (recAt t p).depth = p.length := by
  simp [recAt, recFrom]

theorem extract_ids (t : ProofNode) :
    (extract_all_nodes t).map (fun r => r.id) = (allPaths t).map idOfPath := by
  rw [extract_all_nodes_eq, List.map_map]
  rfl

theorem ids_nodup (t : ProofNode) : ((extract_all_nodes t).map (fun r => r.id)).Nodup := by
  rw [extract_ids]
  exact (allPaths_nodup t).map idOfPath_injective

/-! ### Positions in the flattened list -/

theorem posOf_lt_length {α : Type _} [DecidableEq α] {x : α} {l : List α} (h : x ∈ l) :
    posOf x l < l.length := by
  induction l with
  | nil => cases h
  | cons y l ih =>
    by_cases hyx : y = x
    · simp [posOf, hyx]
    · rcases List.mem_cons.mp h with rfl | hmem
      · exact absurd rfl hyx
      · simp only [posOf, hyx, if_false, List.length_cons]
        exact Nat.succ_lt_succ (ih hmem)

theorem posOf_map {α β : Type _} [DecidableEq α] [DecidableEq β] {f : α → β}
    (hf : Function.Injective f) (x : α) (l : List α) :
    posOf (f x) (l.map f) = posOf x l := by
  induction l with
  | nil => rfl
  | cons y l ih =>
    simp only [List.map_cons, posOf, ih]
    by_cases hyx : y = x
    · simp [hyx]
    · rw [if_neg (fun hfe => hyx (hf hfe)), if_neg hyx]

theorem posOf_lt_posOf {α : Type _} [DecidableEq α] {R : α → α → Prop}
    (hne : ∀ x y, R x y → x ≠ y) (hasym : ∀ x y, R x y → ¬R y x) :
    ∀ (l : List α), l.Pairwise R → ∀ {a b}, a ∈ l → b ∈ l → R a b →
      posOf a l < posOf b l := by
  intro l
  induction l with
  | nil => intro _ a b ha; cases ha
  | cons y l ih =>
    intro hpw a b ha hb hab
    rcases List.pairwise_cons.mp hpw with ⟨hy, hl⟩
    by_cases hya : y = a
    · subst hya
      have hba : y ≠ b := hne _ _ hab
      have h1 : posOf y (y :: l) = 0 := by simp [posOf]
      have h2 : posOf b (y :: l) = posOf b l + 1 := by simp [posOf, hba]
      omega
    · have ha' : a ∈ l := by
        rcases List.mem_cons.mp ha with rfl | h
        · exact absurd rfl hya
        · exact h
      by_cases hyb : y = b
      · subst hyb
        exact absurd hab (hasym _ _ (hy a ha'))
      · have hb' : b ∈ l := by
          rcases List.mem_cons.mp hb with rfl | h
          · exact absurd rfl hyb
          · exact h
        simp only [posOf, if_neg hya, if_neg hyb]
        exact Nat.succ_lt_succ (ih hl ha' hb' hab)

theorem lexLt_asymm {p q : List Nat} (h : List.Lex (· < ·) p q) :
    ¬List.Lex (· < ·) q p := by
  intro h'
  induction p generalizing q with
  | nil => cases h'
  | cons a p ih =>
    cases h with
    | cons hpq =>
      cases h' with
      | cons hqp => exact ih hpq hqp
      | rel hr => omega
    | rel hr =>
      cases h' with
      | cons _ => omega
      | rel hr' => omega

theorem lexLt_ne {p q : List Nat} (h : List.Lex (· < ·) p q) : p ≠ q := by
  rintro rfl
  exact lexLt_asymm h h

theorem lexLt_of_append {p r : List Nat} (hr : r ≠ []) : List.Lex (· < ·) p (p ++ r) := by
  induction p with
  | nil =>
    match r, hr with
    | x :: xs, _ => exact List.Lex.nil
  | cons a p ih => exact List.Lex.cons ih

theorem lexLt_sibling {i j : Nat} (hij : i < j) :
    ∀ (s p' q' : List Nat), List.Lex (· < ·) (s ++ i :: p') (s ++ j :: q') := by
  intro s
  induction s with
  | nil => intro p' q'; exact List.Lex.rel hij
  | cons a s ih => intro p' q'; exact List.Lex.cons (ih p' q')

theorem pathIndex_eq_posOf (t : ProofNode) (p : List Nat) :
    pathIndex t p = posOf p (allPaths t) := by
  rw [pathIndex, extract_ids, posOf_map idOfPath_injective]

theorem pathIndex_lt_of_lex {t : ProofNode} {p q : List Nat}
    (hp : p ∈ allPaths t) (hq : q ∈ allPaths t) (h : List.Lex (· < ·) p q) :
    pathIndex t p < pathIndex t q := by
  rw [pathIndex_eq_posOf, pathIndex_eq_posOf]
  exact posOf_lt_posOf (fun x y hxy => lexLt_ne hxy) (fun x y hxy => lexLt_asymm hxy)
    (allPaths t) (allPaths_sorted t) hp hq h

theorem pathIndex_lt_length {t : ProofNode} {p : List Nat} (hp : p ∈ allPaths t) :
    pathIndex t p < (extract_all_nodes t).length := by
  rw [pathIndex_eq_posOf, extract_all_nodes_eq, List.length_map]
  exact posOf_lt_length hp

theorem allPaths_T0 : allPaths T0 = [[], [0], [1]] := by
  simp [T0, T_A, T_B, allPaths_mk, allPathsList_cons, allPathsList_nil]

theorem mem0_T0 : [0] ∈ allPaths T0 := by rw [allPaths_T0]; simp

theorem mem1_T0 : [1] ∈ allPaths T0 := by rw [allPaths_T0]; simp

/-! ### Claim C1 -/

theorem allPaths_filter_nil (t : ProofNode) :
    (allPaths t).filter (fun p => p = ([] : List Nat)) = [[]] := by
  match t with
  | .mk s e cs b =>
    rw [allPaths_mk, List.filter_cons]
    simp only [decide_True, if_true, decide_eq_true_eq]
    rw [List.filter_eq_nil_iff.mpr]
    intro p hp
    simp only [decide_eq_true_eq]
    exact ne_nil_of_mem_allPathsList hp

/-- C1: for every `ProofNode` tree, `extract_all_nodes` yields exactly one
record per node of the tree; the record with id `"root"` is the unique record
with no `parent_id`; every other record's `parent_id` is the id of a record in
the list; and no two distinct nodes receive the same id. -/
theorem claim_C1 (t : ProofNode) :
    (extract_all_nodes t).length = t.size ∧
    (((extract_all_nodes t).filter fun r => r.parent_id = none).map fun r => r.id) = ["root"] ∧
    (∀ r ∈ extract_all_nodes t, r.parent_id = none ∨
      ∃ r' ∈ extract_all_nodes t, r.parent_id = some r'.id) ∧
    ((extract_all_nodes t).map fun r => r.id).Nodup := by
  refine ⟨?_, ?_, ?_, ids_nodup t⟩
  · rw [extract_all_nodes_eq, List.length_map, allPaths_length]
  · rw [extract_all_nodes_eq, List.filter_map]
    have hcongr : (allPaths t).filter ((fun r => decide (r.parent_id = none)) ∘ recAt t) =
        (allPaths t).filter (fun p => p = ([] : List Nat)) := by
      apply List.filter_congr
      intro p hp
      match p with
      | [] => simp [recAt_parent_nil]
      | x :: xs => simp [recAt_parent_of_ne_nil t (List.cons_ne_nil x xs)]
    rw [hcongr, allPaths_filter_nil]
    simp only [List.map_cons, List.map_nil, recAt_id]
    rw [idOfPath, idFrom_nil]
  · intro r hr
    rw [extract_all_nodes_eq] at hr
    rcases List.mem_map.mp hr with ⟨p, hp, rfl⟩
    match p with
    | [] => exact Or.inl (recAt_parent_nil t)
    | x :: xs =>
      refine Or.inr ⟨recAt t (x :: xs).dropLast, ?_, ?_⟩
      · rw [extract_all_nodes_eq]
        exact List.mem_map_of_mem _ (dropLast_mem_allPaths hp)
      · rw [recAt_parent_of_ne_nil t (List.cons_ne_nil x xs), recAt_id]

theorem claim_C1_witness :
    (extract_all_nodes T0).length = T0.size ∧
    ((recAt T0 [0]).parent_id = none ∨
      ∃ r' ∈ extract_all_nodes T0, (recAt T0 [0]).parent_id = some r'.id) := by
  refine ⟨(claim_C1 T0).1, (claim_C1 T0).2.2.1 (recAt T0 [0]) ?_⟩
  rw [extract_all_nodes_eq]
  exact List.mem_map_of_mem _ mem0_T0

/-! ### Claim C2 -/

/-- C2: the flattened list is in pre-order: the record of a node at path `p`
appears strictly before the record of any proper descendant (a node at path
`p ++ r`), and any node in child `i`'s subtree appears before any node in
child `j`'s subtree when `i < j`; every such position is a real index of the
list. -/
theorem claim_C2 (t : ProofNode) (p q : List Nat)
    (hp : p ∈ allPaths t) (hq : q ∈ allPaths t) :
    (∀ r, r ≠ [] → q = p ++ r → pathIndex t p < pathIndex t q) ∧
    (∀ s i j p' q', i < j → p = s ++ i :: p' → q = s ++ j :: q' →
      pathIndex t p < pathIndex t q) ∧
    pathIndex t p < (extract_all_nodes t).length := by
  refine ⟨?_, ?_, pathIndex_lt_length hp⟩
  · rintro r hr rfl
    exact pathIndex_lt_of_lex hp hq (lexLt_of_append hr)
  · rintro s i j p' q' hij rfl rfl
    exact pathIndex_lt_of_lex hp hq (lexLt_sibling hij s p' q')

theorem claim_C2_witness :
    pathIndex T0 [] < pathIndex T0 [0] ∧ pathIndex T0 [0] < pathIndex T0 [1] := by
  constructor
  · exact (claim_C2 T0 [] [0] (nil_mem_allPaths T0) mem0_T0).1 [0]
      (List.cons_ne_nil 0 []) rfl
  · exact (claim_C2 T0 [0] [1] mem0_T0 mem1_T0).2.1 [] 0 1 [] [] (by omega) rfl rfl

/-! ### Claim C7 -/

/-- C7: `extract_leaf_nodes` returns exactly the flattened records whose
`is_leaf` field is true — membership depends only on that flag, never on the
child count. -/
theorem claim_C7 (t : ProofNode) (r : NodeRec) :
    r ∈ extract_leaf_nodes t ↔ r ∈ extract_all_nodes t ∧ r.is_leaf = true := by
  simp [extract_leaf_nodes, List.mem_filter]

/-! ### Claim C10 -/

theorem buildChildren_nil : buildChildren [] = [] := by rw [buildChildren]

theorem buildChildren_cons (c : ProofNode) (rest : List ProofNode) :
    buildChildren (c :: rest) = build_tree_structure c :: buildChildren rest := by
  rw [buildChildren]

theorem dictChildren_nil : dictChildren [] = [] := by rw [dictChildren]

theorem dictChildren_cons (d : TreeDict) (ds : List TreeDict) :
    dictChildren (d :: ds) = dict_to_proof_node d :: dictChildren ds := by
  rw [dictChildren]

theorem dictChildren_buildChildren {cs : List ProofNode}
    (IH : ∀ c ∈ cs, dict_to_proof_node (build_tree_structure c) = c) :
    dictChildren (buildChildren cs) = cs := by
  induction cs with
  | nil => rw [buildChildren_nil, dictChildren_nil]
  | cons c rest ih =>
    rw [buildChildren_cons, dictChildren_cons, IH c (List.mem_cons_self c rest),
      ih fun c' hc' => IH c' (List.mem_cons_of_mem _ hc')]

/-- C10: converting the `build_tree_structure` projection of any tree back
through `dict_to_proof_node` reproduces the tree exactly; the omitted
`children` key of childless nodes is restored by the empty-list default. -/
theorem claim_C10 (t : ProofNode) : dict_to_proof_node (build_tree_structure t) = t := by
  induction t using ProofNode.indOn with
  | _ s e cs b IH =>
    rw [build_tree_structure]
    by_cases hcs : cs.isEmpty
    · rw [if_pos hcs, dict_to_proof_node]
      have : cs = [] := List.isEmpty_iff.mp hcs
      subst this
      rfl
    · rw [if_neg hcs, dict_to_proof_node]
      simp only [Option.getD_some]
      rw [dictChildren_buildChildren IH]

/-! ### Claim C4 -/

/-- C4: the outcome of `maestro_rag` is decided by the judge's trimmed
response parsed as a Python `int`: value `1` gives `"success"`, any other
parsed integer gives `"failure"`, and a parse failure re-runs the full
decomposition flow on the supplied original theorem or the hard-coded default,
returning that flow's value in place of a tri-state outcome. -/
theorem claim_C4 (step : String) (assumptions : List String) (orig : Option String)
    (judge_raw : String) :
    (pyInt? (pyStrip judge_raw) = some 1 →
      maestro_rag step assumptions orig judge_raw = .answer "success") ∧
    (∀ k : Int, k ≠ 1 → pyInt? (pyStrip judge_raw) = some k →
      maestro_rag step assumptions orig judge_raw = .answer "failure") ∧
    (pyInt? (pyStrip judge_raw) = none →
      ∃ thm, maestro_rag step assumptions orig judge_raw = .recomputed thm ∧
        (orig = some thm ∨ thm = defaultTheorem)) := by
  refine ⟨?_, ?_, ?_⟩
  · intro h
    simp [maestro_rag, h]
  · intro k hk h
    simp [maestro_rag, h, hk]
  · intro h
    refine ⟨theoremToUse orig, by simp [maestro_rag, h], ?_⟩
    match orig with
    | none => exact Or.inr rfl
    | some t =>
      by_cases ht : t = ""
      · exact Or.inr (by simp [theoremToUse, ht])
      · exact Or.inl (by simp [theoremToUse, ht])

theorem claim_C4_witness :
    maestro_rag "s" ["a"] (some "T") "1" = .answer "success" ∧
    maestro_rag "s" ["a"] (some "T") "0" = .answer "failure" ∧
    maestro_rag "s" ["a"] (some "T") "2" = .answer "failure" ∧
    maestro_rag "s" ["a"] (some "T") "-3" = .answer "failure" ∧
    maestro_rag "s" ["a"] (some "T") "1_0" = .answer "failure" ∧
    maestro_rag "s" ["a"] (some "T") "\xa01" = .answer "success" ∧
    maestro_rag "s" ["a"] (some "T") "١" = .answer "success" ∧
    (∃ thm, maestro_rag "s" ["a"] (some "T") "yes" = .recomputed thm ∧
      ((some "T" : Option String) = some thm ∨ thm = defaultTheorem)) := by
  refine ⟨(claim_C4 "s" ["a"] (some "T") "1").1 (by decide),
    (claim_C4 "s" ["a"] (some "T") "0").2.1 0 (by decide) (by decide),
    (claim_C4 "s" ["a"] (some "T") "2").2.1 2 (by decide) (by decide),
    (claim_C4 "s" ["a"] (some "T") "-3").2.1 (-3) (by decide) (by decide),
    (claim_C4 "s" ["a"] (some "T") "1_0").2.1 10 (by decide) (by decide),
    (claim_C4 "s" ["a"] (some "T") "\xa01").1 (by decide),
    (claim_C4 "s" ["a"] (some "T") "١").1 (by decide),
    (claim_C4 "s" ["a"] (some "T") "yes").2.2 (by decide)⟩

/-! ### Claim C5 -/

/-- C5: a node paired with an empty assumptions list gets the fixed sentinel
`"skipped - no assumptions"` as its `validation_result`, independently of the
collaborator oracle, and `maestro_rag` is invoked zero times. -/
theorem claim_C5 (node : NodeRec) (orig : Option String) (oracle : Except Unit String) :
    (process_node_with_assumptions node [] orig oracle).1.validation_result =
      .inr "skipped - no assumptions" ∧
    (process_node_with_assumptions node [] orig oracle).2 = 0 := by
  constructor <;> rfl

/-! ### Lookup by id along valid nonnegative segment paths -/

theorem pyGetItem_nat (l : List ProofNode) {i : Nat} {c : ProofNode}
    (hc : l.get? i = some c) : pyGetItem l (i : Int) = .ok c := by
  have h0 : ¬((i : Int) < 0) := by omega
  simp only [pyGetItem, h0, if_false, if_pos (by omega : (0 : Int) ≤ (i : Int)),
    Int.toNat_natCast]
  rw [hc]

theorem findLoop_natSegs (segs : List Nat) : ∀ (t : ProofNode),
    findLoop t (segs.map natStr) = .ok (nodeAt? t segs) := by
  induction segs with
  | nil => intro t; rfl
  | cons i rest ih =>
    intro t
    simp only [List.map_cons, findLoop, pyInt?_natStr]
    by_cases hlt : (i : Int) < (t.children.length : Int)
    · have hi : i < t.children.length := by exact_mod_cast hlt
      obtain ⟨c, hc⟩ : ∃ c, t.children.get? i = some c :=
        ⟨t.children.get ⟨i, hi⟩, List.get?_eq_some.mpr ⟨hi, rfl⟩⟩
      have hc' : t.children[i]? = some c := by simpa [List.get?_eq_getElem?] using hc
      rw [if_pos hlt, pyGetItem_nat _ hc]
      show findLoop c (List.map natStr rest) = Except.ok (nodeAt? t (i :: rest))
      rw [ih c]
      simp [nodeAt?, hc']
    · have hi : ¬i < t.children.length := by exact_mod_cast hlt
      have hc : t.children[i]? = none := by
        simp [List.getElem?_eq_none_iff]
        omega
      rw [if_neg hlt]
      simp [nodeAt?, hc]

theorem idOfPath_ne_root {p : List Nat} (hp : p ≠ []) : idOfPath p ≠ "root" := by
  intro h
  have h0 : idOfPath p = idOfPath [] := by rw [h, idOfPath, idFrom_nil]
  exact hp (idOfPath_injective h0)

/-- Applying `find_node_by_id` on any id produced by the flattening id scheme resolves
to the path walk `nodeAt?`: each segment indexes into the children of the node
reached so far, with `None` returned exactly when a segment is out of range. -/
theorem find_node_by_id_idOfPath (t : ProofNode) (segs : List Nat) :
    find_node_by_id t (idOfPath segs) = .ok (nodeAt? t segs) := by
  match segs with
  | [] =>
    rw [idOfPath, idFrom_nil]
    rfl
  | i :: rest =>
    rw [find_node_by_id, if_neg (idOfPath_ne_root (List.cons_ne_nil i rest)),
      pySplit_idOfPath]
    exact findLoop_natSegs (i :: rest) t

/-! ### Claim C8 (corrected) -/

/-- Counterexample to C8 as stated: on a childless root and the id
`"root_-1"`, whose single segment `-1` is an integer and is out of range for
child count `0`, the code does not return "no match" — `int("-1")` parses,
`-1 < 0` passes the range check, and `children[-1]` raises `IndexError`. -/
theorem claim_C8_counterexample :
    find_node_by_id (.mk "T" none [] true) "root_-1" = .error () ∧
    find_node_by_id (.mk "T" none [] true) "root_-1" ≠ .ok none := by
  constructor
  · rfl
  · intro h
    exact Except.noConfusion h

/-- C8 (amended to nonnegative segments): for every id of the form `root`
followed by underscore-separated nonnegative decimal segments,
`find_node_by_id` walks the segments indexing into children in order,
returning no match (absent) whenever a segment is out of range for the current
node's child count and the node reached otherwise — this is the walk
`nodeAt?`. -/
theorem claim_C8 (t : ProofNode) (segs : List Nat) :
    find_node_by_id t (idOfPath segs) = .ok (nodeAt? t segs) :=
  find_node_by_id_idOfPath t segs

/-! ### Claim C9 -/

/-- C9: round-trip between flattening and lookup — every record emitted by
`extract_all_nodes` resolves through `find_node_by_id` to a node whose
`step`, `explanation`, `is_leaf` and child count equal the record's fields. -/
theorem claim_C9 (t : ProofNode) (r : NodeRec) (hr : r ∈ extract_all_nodes t) :
    ∃ n, find_node_by_id t r.id = .ok (some n) ∧ n.step = r.step ∧
      n.explanation = r.explanation ∧ n.is_leaf = r.is_leaf ∧
      n.children.length = r.child_count := by
  rw [extract_all_nodes_eq] at hr
  rcases List.mem_map.mp hr with ⟨p, hp, rfl⟩
  rcases nodeAt?_isSome hp with ⟨m, hm⟩
  refine ⟨m, ?_, ?_, ?_, ?_, ?_⟩
  · rw [recAt_id, find_node_by_id_idOfPath, hm]
  all_goals rw [recAt_eq_of_nodeAt hm]

theorem claim_C9_witness :
    ∃ n, find_node_by_id T0 (recAt T0 [0]).id = .ok (some n) ∧
      n.step = (recAt T0 [0]).step ∧ n.explanation = (recAt T0 [0]).explanation ∧
      n.is_leaf = (recAt T0 [0]).is_leaf ∧
      n.children.length = (recAt T0 [0]).child_count :=
  claim_C9 T0 (recAt T0 [0])
    (by rw [extract_all_nodes_eq]; exact List.mem_map_of_mem _ mem0_T0)

/-! ### Prefix chains: `inits` facts and the ancestor walk -/

theorem inits_append_singleton (q : List Nat) (x : Nat) :
    (q ++ [x]).inits = q.inits ++ [q ++ [x]] := by
  induction q with
  | nil => simp
  | cons a q ih => simp [ih]

theorem length_inits (p : List Nat) : p.inits.length = p.length + 1 := by
  induction p with
  | nil => simp
  | cons a p ih => simp [ih]

theorem inits_nodup (p : List Nat) : p.inits.Nodup := by
  induction p with
  | nil => simp
  | cons a p ih =>
    simp only [List.inits]
    refine List.Nodup.cons ?_ (ih.map (fun q q' h => by simpa using h))
    simp

theorem get?_inits : ∀ (p : List Nat) (k : Nat),
    p.inits.get? k = if k ≤ p.length then some (p.take k) else none := by
  intro p
  induction p with
  | nil =>
    intro k
    match k with
    | 0 => rfl
    | k + 1 => simp
  | cons a p ih =>
    intro k
    match k with
    | 0 => simp
    | k + 1 =>
      simp only [List.inits, List.get?_cons_succ, List.get?_map, ih k, List.length_cons,
        List.take_succ_cons]
      by_cases hk : k ≤ p.length
      · rw [if_pos hk, if_pos (by omega)]
        rfl
      · rw [if_neg hk, if_neg (by omega)]
        rfl

theorem take_succ_dropLast : ∀ (p : List Nat) (k : Nat), k < p.length →
    (p.take (k + 1)).dropLast = p.take k := by
  intro p
  induction p with
  | nil => intro k h; simp at h
  | cons a p ih =>
    intro k h
    match k with
    | 0 => simp
    | k + 1 =>
      have hk : k < p.length := by
        simp only [List.length_cons] at h
        omega
      have hne : p.take (k + 1) ≠ [] := by
        intro hnil
        have hlen := congrArg List.length hnil
        simp only [List.length_take, List.length_nil] at hlen
        omega
      simp only [List.take_succ_cons]
      rw [List.dropLast_cons_of_ne_nil hne, ih k hk]

theorem inits_map_getLast? {f : List Nat → NodeRec} (p : List Nat) :
    (p.inits.map f).getLast? = some (f p) := by
  induction p using List.reverseRecOn with
  | nil => rfl
  | append_singleton q x _ =>
    rw [inits_append_singleton, List.map_append]
    exact List.getLast?_concat _

theorem prefix_mem_allPaths {t : ProofNode} {q : List Nat} : ∀ {r : List Nat},
    q ++ r ∈ allPaths t → q ∈ allPaths t := by
  intro r
  induction r using List.reverseRecOn generalizing q with
  | nil => intro h; simpa using h
  | append_singleton r' x ih =>
    intro h
    rw [← List.append_assoc] at h
    have := dropLast_mem_allPaths h
    rw [List.dropLast_concat] at this
    exact ih this

theorem take_mem_allPaths {t : ProofNode} {p : List Nat} (hp : p ∈ allPaths t) (k : Nat) :
    p.take k ∈ allPaths t :=
  prefix_mem_allPaths (r := p.drop k) (by rw [List.take_append_drop]; exact hp)

theorem inits_subset_allPaths {t : ProofNode} {p : List Nat} (hp : p ∈ allPaths t) :
    ∀ q ∈ p.inits, q ∈ allPaths t := by
  intro q hq
  obtain ⟨r, rfl⟩ : ∃ r, q ++ r = p := (List.mem_inits q p).mp hq
  exact prefix_mem_allPaths hp

theorem inits_length_le {t : ProofNode} {p : List Nat} (hp : p ∈ allPaths t) :
    p.length + 1 ≤ (extract_all_nodes t).length := by
  have hsub : List.Subperm p.inits (allPaths t) :=
    (inits_nodup p).subperm (inits_subset_allPaths hp)
  have := hsub.length_le
  rw [length_inits] at this
  rw [extract_all_nodes_eq, List.length_map]
  exact this

theorem find?_idOfPath {q : List Nat} : ∀ {l : List (List Nat)}, q ∈ l →
    l.find? (fun p => idOfPath p == idOfPath q) = some q := by
  intro l
  induction l with
  | nil => intro h; cases h
  | cons y l ih =>
    intro h
    by_cases hyq : y = q
    · subst hyq
      rw [List.find?_cons_of_pos _ (by simp)]
    · rw [List.find?_cons_of_neg _ ?_]
      · apply ih
        rcases List.mem_cons.mp h with rfl | h
        · exact absurd rfl hyq
        · exact h
      · simp only [beq_iff_eq]
        exact fun he => hyq (idOfPath_injective he)

theorem node_dict_spec (t : ProofNode) {q : List Nat} (hq : q ∈ allPaths t) :
    ((extract_all_nodes t).find? fun r => r.id == idOfPath q) = some (recAt t q) := by
  rw [extract_all_nodes_eq, List.find?_map]
  have hcomp : ((fun r : NodeRec => r.id == idOfPath q) ∘ recAt t) =
      fun p => idOfPath p == idOfPath q := rfl
  rw [hcomp, find?_idOfPath hq]
  rfl

theorem walkUp_none (lookup : String → Option NodeRec) (fuel : Nat) (acc : List NodeRec) :
    walkUp lookup fuel none acc = acc := by
  match fuel with
  | 0 => rfl
  | f + 1 => rfl

theorem walkUp_spec (t : ProofNode) : ∀ (p : List Nat), p ∈ allPaths t →
    ∀ (fuel : Nat), p.length + 1 ≤ fuel → ∀ (acc : List NodeRec),
      walkUp (fun i => (extract_all_nodes t).find? fun r => r.id == i) fuel
        (some (idOfPath p)) acc = acc ++ (p.inits.map (recAt t)).reverse := by
  intro p
  induction p using List.reverseRecOn with
  | nil =>
    intro hp fuel hfuel acc
    match fuel, hfuel with
    | f + 1, _ =>
      simp only [walkUp, node_dict_spec t hp, recAt_parent_nil, walkUp_none]
      simp
  | append_singleton q x ih =>
    intro hp fuel hfuel acc
    match fuel, hfuel with
    | f + 1, hfuel' =>
      have hq : q ∈ allPaths t := by
        have := dropLast_mem_allPaths hp
        rwa [List.dropLast_concat] at this
      have hpar : (recAt t (q ++ [x])).parent_id = some (idOfPath q) := by
        rw [recAt_parent_of_ne_nil t (by simp), List.dropLast_concat]
      simp only [walkUp, node_dict_spec t hp, hpar]
      rw [ih hq f (by simp only [List.length_append, List.length_cons,
        List.length_nil] at hfuel'; omega) (acc ++ [recAt t (q ++ [x])])]
      rw [inits_append_singleton, List.map_append, List.reverse_append]
      simp [List.append_assoc]

theorem find_path_spec (t : ProofNode) {p : List Nat} (hp : p ∈ allPaths t) :
    find_path_to_leaf t (idOfPath p) = p.inits.map (recAt t) := by
  show (walkUp _ ((extract_all_nodes t).length + 1) (some (idOfPath p)) []).reverse = _
  rw [walkUp_spec t p hp ((extract_all_nodes t).length + 1)
    (by have := inits_length_le hp; omega) []]
  simp

/-! ### Claim C6 -/

/-- C6: for a node at depth `d` (the node at path `p`, of depth `p.length`),
`find_path_to_leaf` on its flattened id returns exactly the records of the
`d + 1` ancestors in root-first order — the record of every prefix of `p`,
ending at the target — and each consecutive pair is linked by `parent_id`. -/
theorem claim_C6 (t : ProofNode) (p : List Nat) (hp : p ∈ allPaths t) :
    find_path_to_leaf t (idOfPath p) = p.inits.map (recAt t) ∧
    (find_path_to_leaf t (idOfPath p)).length = (recAt t p).depth + 1 ∧
    (find_path_to_leaf t (idOfPath p)).head? = some (recAt t []) ∧
    (find_path_to_leaf t (idOfPath p)).getLast? = some (recAt t p) ∧
    (∀ k r r', (find_path_to_leaf t (idOfPath p)).get? k = some r →
      (find_path_to_leaf t (idOfPath p)).get? (k + 1) = some r' →
      r'.parent_id = some r.id) := by
  have hmain := find_path_spec t hp
  refine ⟨hmain, ?_, ?_, ?_, ?_⟩
  · rw [hmain, List.length_map, length_inits, recAt_depth]
  · rw [hmain]
    match p with
    | [] => rfl
    | y :: ys => simp [List.inits]
  · rw [hmain, inits_map_getLast?]
  · intro k r r' hr hr'
    rw [hmain, List.get?_map, get?_inits] at hr hr'
    by_cases hk1 : k + 1 ≤ p.length
    · rw [if_pos hk1] at hr'
      rw [if_pos (by omega)] at hr
      have hr0 : r = recAt t (p.take k) := by
        cases hr
        rfl
      have hr1 : r' = recAt t (p.take (k + 1)) := by
        cases hr'
        rfl
      subst hr0
      subst hr1
      have hne : p.take (k + 1) ≠ [] := by
        intro h
        have := congrArg List.length h
        simp only [List.length_take, List.length_nil] at this
        omega
      rw [recAt_parent_of_ne_nil t hne, recAt_id, take_succ_dropLast p k (by omega)]
    · rw [if_neg hk1] at hr'
      cases hr'

theorem claim_C6_witness :
    find_path_to_leaf T0 (idOfPath [0]) = [0].inits.map (recAt T0) ∧
    (find_path_to_leaf T0 (idOfPath [0])).length = (recAt T0 [0]).depth + 1 :=
  ⟨(claim_C6 T0 [0] mem0_T0).1, (claim_C6 T0 [0] mem0_T0).2.1⟩

/-! ### Claim C3: assumption pairing -/

theorem nodeAt?_cons (t : ProofNode) (j : Nat) (p' : List Nat) :
    nodeAt? t (j :: p') =
      match t.children.get? j with
      | some c => nodeAt? c p'
      | none => none := rfl

theorem mem_allPaths_concat : ∀ (p : List Nat) (t m : ProofNode),
    nodeAt? t p = some m → ∀ i : Nat,
      (p ++ [i] ∈ allPaths t ↔ i < m.children.length) := by
  intro p
  induction p with
  | nil =>
    intro t m hm i
    have ht : t = m := by
      simpa [nodeAt?] using hm
    subst ht
    rw [List.nil_append, mem_allPaths]
    constructor
    · rintro (h | ⟨j, q, c, hget, _, heq⟩)
      · cases h
      · obtain ⟨rfl, rfl⟩ : j = i ∧ q = [] := by
          cases heq
          exact ⟨rfl, rfl⟩
        rcases List.get?_eq_some.mp hget with ⟨hlt, _⟩
        exact hlt
    · intro hi
      obtain ⟨c, hc⟩ : ∃ c, t.children.get? i = some c :=
        ⟨t.children.get ⟨i, hi⟩, List.get?_eq_some.mpr ⟨hi, rfl⟩⟩
      exact Or.inr ⟨i, [], c, hc, nil_mem_allPaths c, rfl⟩
  | cons j p' ih =>
    intro t m hm i
    rw [nodeAt?_cons] at hm
    cases hc : t.children.get? j with
    | none => rw [hc] at hm; cases hm
    | some c =>
      rw [hc] at hm
      rw [List.cons_append, mem_allPaths]
      constructor
      · rintro (h | ⟨j', q, c', hget, hq, heq⟩)
        · cases h
        · obtain ⟨rfl, rfl⟩ : j' = j ∧ q = p' ++ [i] := by
            cases heq
            exact ⟨rfl, rfl⟩
          have hcc : c' = c := by
            rw [hget] at hc
            exact (Option.some.injEq _ _).mp hc
          rw [hcc] at hq
          exact (ih c m hm i).mp hq
      · intro hi
        exact Or.inr ⟨j, p' ++ [i], c, hc, (ih c m hm i).mpr hi, rfl⟩

theorem filter_children_paths (t : ProofNode) {p : List Nat} {m : ProofNode}
    (hm : nodeAt? t p = some m) :
    (allPaths t).filter (fun q => decide (q.dropLast = p ∧ q ≠ [])) =
      (List.range m.children.length).map (fun i => p ++ [i]) := by
  haveI : IsAntisymm (List Nat) (List.Lex (· < ·)) :=
    ⟨fun a b h h' => absurd h' (lexLt_asymm h)⟩
  have hinj : Function.Injective (fun i : Nat => p ++ [i]) := by
    intro i j hij
    simpa using hij
  have d1 : ((allPaths t).filter (fun q => decide (q.dropLast = p ∧ q ≠ []))).Nodup :=
    (allPaths_nodup t).filter _
  have d2 : ((List.range m.children.length).map (fun i => p ++ [i])).Nodup :=
    (List.nodup_range _).map hinj
  have s1 : ((allPaths t).filter
      (fun q => decide (q.dropLast = p ∧ q ≠ []))).Pairwise (List.Lex (· < ·)) :=
    (allPaths_sorted t).filter _
  have s2 : ((List.range m.children.length).map
      (fun i => p ++ [i])).Pairwise (List.Lex (· < ·)) :=
    (List.pairwise_lt_range _).map _ (fun i j hij => lexLt_sibling hij p [] [])
  have hmem : ∀ q, (q ∈ (allPaths t).filter (fun q => decide (q.dropLast = p ∧ q ≠ []))) ↔
      q ∈ (List.range m.children.length).map (fun i => p ++ [i]) := by
    intro q
    rw [List.mem_filter, List.mem_map]
    constructor
    · rintro ⟨hqmem, hcond⟩
      rcases of_decide_eq_true hcond with ⟨hdl, hne⟩
      have hq : q = p ++ [q.getLast hne] := by
        conv_lhs => rw [← List.dropLast_append_getLast hne]
        rw [hdl]
      refine ⟨q.getLast hne, List.mem_range.mpr ?_, hq.symm⟩
      rw [hq] at hqmem
      exact (mem_allPaths_concat p t m hm _).mp hqmem
    · rintro ⟨i, hi, rfl⟩
      refine ⟨(mem_allPaths_concat p t m hm i).mpr (List.mem_range.mp hi), ?_⟩
      simp
  exact List.eq_of_perm_of_sorted ((List.perm_ext_iff_of_nodup d1 d2).mpr hmem) s1 s2

/-- C3: `get_nodes_with_assumptions` pairs each flattened node with exactly
the flattened records of its immediate children — nodes whose `parent_id` is
the node's id, equivalently the records of the child paths `p ++ [i]` for
`i` below the child count, in child order — and a childless node is paired
with the empty list (`childRecords` is then the map over an empty range). -/
theorem claim_C3 (t : ProofNode) :
    get_nodes_with_assumptions t =
      ((allPaths t).map fun p => (recAt t p, childRecords t p)) ∧
    ∀ pr ∈ get_nodes_with_assumptions t,
      pr.2 = (extract_all_nodes t).filter fun r => r.parent_id == some pr.1.id := by
  have hmain : get_nodes_with_assumptions t =
      (allPaths t).map fun p => (recAt t p, childRecords t p) := by
    show (extract_all_nodes t).map (fun node =>
      (node, (extract_all_nodes t).filter fun r => r.parent_id == some node.id)) = _
    rw [extract_all_nodes_eq, List.map_map]
    apply List.map_congr_left
    intro p hp
    rcases nodeAt?_isSome hp with ⟨m, hm⟩
    have hcount : childCountAt t p = m.children.length := by
      rw [childCountAt, hm]
      rfl
    simp only [Function.comp_apply, recAt_id, Prod.mk.injEq, true_and]
    rw [List.filter_map]
    have hcong : (allPaths t).filter
        ((fun r : NodeRec => r.parent_id == some (idOfPath p)) ∘ recAt t) =
        (allPaths t).filter (fun q => decide (q.dropLast = p ∧ q ≠ [])) := by
      apply List.filter_congr
      intro q _
      simp only [Function.comp_apply]
      match q with
      | [] => simp [recAt_parent_nil]
      | x :: xs =>
        rw [recAt_parent_of_ne_nil t (List.cons_ne_nil x xs)]
        by_cases h : (x :: xs).dropLast = p
        · simp [h]
        · have hb : (some (idOfPath (x :: xs).dropLast) == some (idOfPath p)) = false := by
            rw [beq_eq_false_iff_ne]
            intro he
            rw [Option.some.injEq] at he
            exact h (idOfPath_injective he)
          simp [h, hb]
    rw [hcong, filter_children_paths t hm, childRecords, hcount, List.map_map]
    rfl
  refine ⟨hmain, ?_⟩
  intro pr hpr
  show pr.2 = (extract_all_nodes t).filter fun r => r.parent_id == some pr.1.id
  rw [hmain] at hpr
  rcases List.mem_map.mp hpr with ⟨p, hp, rfl⟩
  rcases nodeAt?_isSome hp with ⟨m, hm⟩
  have hcount : childCountAt t p = m.children.length := by
    rw [childCountAt, hm]
    rfl
  rw [extract_all_nodes_eq, List.filter_map]
  have hcong : (allPaths t).filter
      ((fun r : NodeRec => r.parent_id == some (recAt t p, childRecords t p).1.id) ∘ recAt t) =
      (allPaths t).filter (fun q => decide (q.dropLast = p ∧ q ≠ [])) := by
    apply List.filter_congr
    intro q _
    simp only [Function.comp_apply, recAt_id]
    match q with
    | [] => simp [recAt_parent_nil]
    | x :: xs =>
      rw [recAt_parent_of_ne_nil t (List.cons_ne_nil x xs)]
      by_cases h : (x :: xs).dropLast = p
      · simp [h]
      · have hb : (some (idOfPath (x :: xs).dropLast) == some (idOfPath p)) = false := by
          rw [beq_eq_false_iff_ne]
          intro he
          rw [Option.some.injEq] at he
          exact h (idOfPath_injective he)
        simp [h, hb]
  rw [hcong, filter_children_paths t hm, childRecords, hcount, List.map_map]
  rfl

theorem claim_C3_witness :
    (recAt T0 [], childRecords T0 []) ∈ get_nodes_with_assumptions T0 ∧
    (recAt T0 [], childRecords T0 []).2 = (extract_all_nodes T0).filter
      fun r => r.parent_id == some (recAt T0 [], childRecords T0 []).1.id := by
  have hmem : (recAt T0 [], childRecords T0 []) ∈ get_nodes_with_assumptions T0 := by
    rw [(claim_C3 T0).1]
    exact List.mem_map_of_mem _ (nil_mem_allPaths T0)
  exact ⟨hmem, (claim_C3 T0).2 _ hmem⟩
